import Mathlib

/-!
Verification of the wr-audit-logger capture/delivery core.

The definitions below are shallow embeddings of the TypeScript sources:
* JavaScript values flowing through the capture pipeline are modelled by
  the inductive type JsValue (records are string-keyed field lists, in
  insertion order; integer-like-key reordering of JS objects is not
  modelled, none of the properties depend on it).
* src/utils/serializer.ts : filterFields, getChangedFields, safeSerialize.
* src/utils/primary-key.ts (part_011) : extractPrimaryKey and
  safeStringifyForPK, including a reference-heap model for
  self-referential object graphs.
* src/capture/update.ts : createUpdateAuditLogs.
* src/storage/batch-writer.ts (part_007) : the batched delivery queue as
  an explicit state machine (enqueue, flush start, write completion,
  shutdown), with sink outcomes passed in explicitly.
* src/storage/writer.ts : the metadata merge-and-store path.
* src/core/AuditLogger.ts : shouldAudit.
-/

namespace AuditCore

/-- JavaScript values as seen by the capture pipeline (acyclic fragment).
Numbers are modelled as integers (every concrete value in the repository's
tests is integral); vDate carries the epoch milliseconds. -/
inductive JsValue where
  | vNull : JsValue
  | vUndefined : JsValue
  | vBool : Bool → JsValue
  | vNum : Int → JsValue
  | vStr : String → JsValue
  | vBigInt : Int → JsValue
  | vDate : Int → JsValue
  | vArr : List JsValue → JsValue
  | vObj : List (String × JsValue) → JsValue
deriving Repr

/-- A plain record (JS object): field list in insertion order. -/
abbrev Rec := List (String × JsValue)

mutual

/-- Node's isDeepStrictEqual restricted to the plain-data fragment:
structural on primitives and arrays, key-set based (order-insensitive)
on objects, tag-strict (1 and 1n are not equal, Date only equals Date). -/
def jsEq : JsValue → JsValue → Bool
  | .vNull, .vNull => true
  | .vUndefined, .vUndefined => true
  | .vBool a, .vBool b => a == b
  | .vNum a, .vNum b => a == b
  | .vStr a, .vStr b => a == b
  | .vBigInt a, .vBigInt b => a == b
  | .vDate a, .vDate b => a == b
  | .vArr xs, .vArr ys => jsEqList xs ys
  | .vObj fs, .vObj gs => fs.length == gs.length && jsEqFields fs gs
  | _, _ => false

def jsEqList : List JsValue → List JsValue → Bool
  | [], [] => true
  | x :: xs, y :: ys => jsEq x y && jsEqList xs ys
  | _, _ => false

def jsEqFields : List (String × JsValue) → List (String × JsValue) → Bool
  | [], _ => true
  | (k, v) :: rest, gs =>
    (match gs.find? (fun kv => kv.1 == k) with
     | some kv => jsEq v kv.2
     | none => false) && jsEqFields rest gs

end

/-- record[k] : the stored value, or undefined when the key is absent. -/
def recGet (r : Rec) (k : String) : JsValue :=
  match r.find? (fun kv => kv.1 == k) with
  | some kv => kv.2
  | none => .vUndefined

/-- Object.keys. -/
def recKeys (r : Rec) : List String := r.map (·.1)

/-- Insertion-ordered deduplication with the set of already-seen keys. -/
def dedupFirstAux (seen : List String) : List String → List String
  | [] => []
  | x :: xs =>
    if x ∈ seen then dedupFirstAux seen xs
    else x :: dedupFirstAux (x :: seen) xs

/-- Insertion-ordered deduplication, as performed by a JS Set fed the two
key lists (first occurrence wins). -/
def dedupFirst (l : List String) : List String := dedupFirstAux [] l

/-- Capture-side configuration (src/types/config.ts, NormalizedConfig).
fields is the per-table allow-list map; excludeFields the global deny-list. -/
structure CaptureConfig where
  excludeFields : List String
  fields : String → Option (List String)
  captureOldValues : Bool

/-- serializer.ts filterFields: shallow copy, delete globally excluded
keys, then (if an allow-list exists for the table) delete keys outside it.
Deletion keeps the remaining keys in their original order, hence filter. -/
def filterFields (r : Rec) (tableName : String) (config : CaptureConfig) : Rec :=
  let afterExclude := r.filter (fun kv => ¬ kv.1 ∈ config.excludeFields)
  match config.fields tableName with
  | some allowedFields => afterExclude.filter (fun kv => kv.1 ∈ allowedFields)
  | none => afterExclude

/-- serializer.ts getChangedFields: union of both key sets in insertion
order; a key is changed when the two sides are not deep-strict-equal
(an absent key reads as undefined). -/
def getChangedFields (before after : Rec) : List String :=
  (dedupFirst (recKeys before ++ recKeys after)).filter
    (fun k => ¬ jsEq (recGet before k) (recGet after k))

/-- The textual form of the long Date toString (locale/zone dependent in
JS; only determinism matters here, so a fixed format is used). -/
def dateToText (ms : Int) : String := "[Date " ++ toString ms ++ "]"

/-- ISO-8601 rendering of a Date, as produced by toISOString. The exact
digit layout is abbreviated to the epoch milliseconds; the theorems only
rely on it being a string determined by the time value. -/
def dateToISO (ms : Int) : String := "ISO(" ++ toString ms ++ ")"

mutual

/-- JavaScript String(v) on the acyclic fragment. Objects render as
"[object Object]" without recursing into properties; arrays join their
elements with commas (null/undefined elements join as the empty string). -/
def jsToString : JsValue → String
  | .vNull => "null"
  | .vUndefined => "undefined"
  | .vBool b => if b then "true" else "false"
  | .vNum n => toString n
  | .vStr s => s
  | .vBigInt n => toString n
  | .vDate ms => dateToText ms
  | .vArr xs => String.intercalate "," (jsToStringElems xs)
  | .vObj _ => "[object Object]"

def jsToStringElems : List JsValue → List String
  | [] => []
  | .vNull :: xs => "" :: jsToStringElems xs
  | .vUndefined :: xs => "" :: jsToStringElems xs
  | x :: xs => jsToString x :: jsToStringElems xs

end

/-- JSON string quoting (escaping backslash and double quote; the control
character escapes are not needed for any value in this development). -/
def jsonQuote (s : String) : String :=
  "\"" ++ (s.replace "\\" "\\\\").replace "\"" "\\\"" ++ "\""

mutual

/-- JSON.stringify on the acyclic fragment, under safeStringifyForPK's
replacer: bigint becomes its decimal string, Date its ISO string (via
toJSON), so both serialize as quoted strings. Object fields with
undefined values are omitted; undefined array elements become null. -/
def jsonStringify : JsValue → String
  | .vNull => "null"
  | .vUndefined => "null"
  | .vBool b => if b then "true" else "false"
  | .vNum n => toString n
  | .vStr s => jsonQuote s
  | .vBigInt n => jsonQuote (toString n)
  | .vDate ms => jsonQuote (dateToISO ms)
  | .vArr xs => "[" ++ String.intercalate "," (jsonStringifyList xs) ++ "]"
  | .vObj fs => "\x7b" ++ String.intercalate "," (jsonStringifyFields fs) ++ "\x7d"

def jsonStringifyList : List JsValue → List String
  | [] => []
  | x :: xs => jsonStringify x :: jsonStringifyList xs

def jsonStringifyFields : List (String × JsValue) → List String
  | [] => []
  | (_, .vUndefined) :: fs => jsonStringifyFields fs
  | (k, v) :: fs => (jsonQuote k ++ ":" ++ jsonStringify v) :: jsonStringifyFields fs

end

/-- The JS test (field in record && record[field] != null): key present
and its value neither null nor undefined. -/
def recHasUsableKey (r : Rec) (k : String) : Bool :=
  match r.find? (fun kv => kv.1 == k) with
  | some kv =>
    match kv.2 with
    | .vNull => false
    | .vUndefined => false
    | _ => true
  | none => false

/-- primary-key.ts extractPrimaryKey (no configured key spec, the form
called by the capture functions): try id, {tableName}_id, uuid, pk; then
the first key whose lowercase name ends in "id" with a non-null value;
last resort, the safe JSON serialization of the whole record (acyclic
records always serialize, so the try branch applies here). -/
def extractPrimaryKey (r : Rec) (tableName : String) : String :=
  let commonPkFields := ["id", tableName ++ "_id", "uuid", "pk"]
  match commonPkFields.find? (fun f => recHasUsableKey r f) with
  | some f => jsToString (recGet r f)
  | none =>
    match (recKeys r).find? (fun k => (k.toLower.endsWith "id") && recHasUsableKey r k) with
    | some k => jsToString (recGet r k)
    | none => jsonStringify (.vObj r)

/-- audit.ts AuditLog, the fields produced by the capture functions. -/
structure AuditLog where
  action : String
  tableName : String
  recordId : String
  oldValues : Option Rec
  newValues : Option Rec
  changedFields : Option (List String)
deriving Repr

/-- The create-like fallback log: full filtered after-record, no old
values, no changed-field list (update.ts lines 22-29, 40-47, 66-73). -/
def fullAfterLog (tableName : String) (config : CaptureConfig) (after : Rec) : AuditLog :=
  { action := "UPDATE"
    tableName := tableName
    recordId := extractPrimaryKey after tableName
    oldValues := none
    newValues := some (filterFields after tableName config)
    changedFields := none }

/-- beforeById.get pk: the Map is built by iterating beforeRecords and
calling set, so a later record with the same resolved key overwrites an
earlier one — lookup returns the last match. -/
def beforeByIdGet (tableName : String) (beforeRecords : List Rec) (pk : String) :
    Option Rec :=
  beforeRecords.reverse.find? (fun b => extractPrimaryKey b tableName == pk)

/-- The matched-pair loop body of update.ts (lines 59-92): unmatched
after-records fall back to the full filtered record; matched pairs are
filtered on both sides, diffed, and emitted only when the diff is
non-empty. -/
def updateLoop (tableName : String) (config : CaptureConfig) (beforeRecords : List Rec) :
    List Rec → List AuditLog
  | [] => []
  | after :: rest =>
    match beforeByIdGet tableName beforeRecords (extractPrimaryKey after tableName) with
    | none => fullAfterLog tableName config after :: updateLoop tableName config beforeRecords rest
    | some before =>
      let oldValues := filterFields before tableName config
      let newValues := filterFields after tableName config
      let changedFields := getChangedFields oldValues newValues
      if changedFields.length > 0 then
        { action := "UPDATE"
          tableName := tableName
          recordId := extractPrimaryKey after tableName
          oldValues := some oldValues
          newValues := some newValues
          changedFields := some changedFields } ::
          updateLoop tableName config beforeRecords rest
      else
        updateLoop tableName config beforeRecords rest

/-- capture/update.ts createUpdateAuditLogs. The TS null-checks on
individual records are unreachable for well-typed inputs and are elided;
records are always present. -/
def createUpdateAuditLogs (tableName : String) (beforeRecords afterRecords : List Rec)
    (config : CaptureConfig) : List AuditLog :=
  if ¬ config.captureOldValues then
    afterRecords.map (fullAfterLog tableName config)
  else if beforeRecords.isEmpty then
    afterRecords.map (fullAfterLog tableName config)
  else
    updateLoop tableName config beforeRecords afterRecords

/-- The log emitted for a matched before/after pair with a non-empty
diff (update.ts lines 77-90): full filtered sides plus the changed-field
names. -/
def pairedUpdateLog (tableName : String) (config : CaptureConfig) (before after : Rec) :
    AuditLog :=
  let oldValues := filterFields before tableName config
  let newValues := filterFields after tableName config
  { action := "UPDATE"
    tableName := tableName
    recordId := extractPrimaryKey after tableName
    oldValues := some oldValues
    newValues := some newValues
    changedFields := some (getChangedFields oldValues newValues) }

/-- The per-record decision of the matched-pair loop, as one function. -/
def updateDecision (tableName : String) (config : CaptureConfig) (beforeRecords : List Rec)
    (after : Rec) : Option AuditLog :=
  match beforeByIdGet tableName beforeRecords (extractPrimaryKey after tableName) with
  | none => some (fullAfterLog tableName config after)
  | some before =>
    if (getChangedFields (filterFields before tableName config)
        (filterFields after tableName config)).length > 0 then
      some (pairedUpdateLog tableName config before after)
    else
      none

lemma updateLoop_eq_filterMap (tableName : String) (config : CaptureConfig)
    (beforeRecords : List Rec) (afterRecords : List Rec) :
    updateLoop tableName config beforeRecords afterRecords =
      afterRecords.filterMap (updateDecision tableName config beforeRecords) := by
  induction afterRecords with
  | nil => rfl
  | cons a rest ih =>
    simp only [updateLoop, List.filterMap_cons, updateDecision]
    cases h : beforeByIdGet tableName beforeRecords (extractPrimaryKey a tableName) with
    | none => simp [ih]
    | some b =>
      by_cases hc : (getChangedFields (filterFields b tableName config)
          (filterFields a tableName config)).length > 0
      · simp [hc, ih, pairedUpdateLog]
      · simp [hc, ih]

lemma createUpdate_changed_eq_filterMap (tableName : String) (config : CaptureConfig)
    (beforeRecords afterRecords : List Rec) (hcap : config.captureOldValues = true)
    (hb : beforeRecords ≠ []) :
    createUpdateAuditLogs tableName beforeRecords afterRecords config =
      afterRecords.filterMap (updateDecision tableName config beforeRecords) := by
  have hb2 : beforeRecords.isEmpty = false := by
    cases beforeRecords with
    | nil => exact absurd rfl hb
    | cons x xs => rfl
  simp only [createUpdateAuditLogs, hcap, hb2, not_true, if_neg, Bool.false_eq_true,
    if_false, updateLoop_eq_filterMap]

/-- Sample configuration with no field policy, used in witnesses. -/
def sampleCfg : CaptureConfig :=
  { excludeFields := [], fields := fun _ => none, captureOldValues := true }

/-- The spec's update-diffing test vector: before record. -/
def beforeUser : Rec := [("id", .vNum 1), ("name", .vStr "A"), ("email", .vStr "x")]

/-- The spec's update-diffing test vector: after record, name changed. -/
def afterUser : Rec := [("id", .vNum 1), ("name", .vStr "B"), ("email", .vStr "x")]

/-- C2 counterexample: on the spec's own test vector with old-value
capture on, exactly one event is produced and its changed-field list is
just ["name"], but the emitted payload (newValues, and likewise
oldValues) still carries every filtered field — including "email", whose
before/after values are deep-equal — so the payload does not contain
only the changed fields. -/
theorem update_changed_payload_keeps_unchanged_fields :
    createUpdateAuditLogs "users" [beforeUser] [afterUser] sampleCfg =
        [pairedUpdateLog "users" sampleCfg beforeUser afterUser]
      ∧ (pairedUpdateLog "users" sampleCfg beforeUser afterUser).changedFields = some ["name"]
      ∧ recKeys ((pairedUpdateLog "users" sampleCfg beforeUser afterUser).newValues.getD [])
          = ["id", "name", "email"]
      ∧ recKeys ((pairedUpdateLog "users" sampleCfg beforeUser afterUser).oldValues.getD [])
          = ["id", "name", "email"]
      ∧ jsEq (recGet beforeUser "email") (recGet afterUser "email") = true :=
  ⟨rfl, rfl, rfl, rfl, rfl⟩

/-- C2 (amended): in old-value-capture ("changed") mode with before-state
present, an after-record matched to a before-record by resolved identity
yields an UPDATE event exactly when at least one field of the filtered
sides differs under deep structural equality; the event carries the full
filtered before- and after-records plus the list of changed field names,
and a batch whose every matched pair has identical filtered sides yields
zero events. -/
theorem update_changed_emits_iff_diff (tableName : String) (config : CaptureConfig)
    (beforeRecords afterRecords : List Rec) (a b : Rec)
    (hcap : config.captureOldValues = true) (hb : beforeRecords ≠ [])
    (ha : a ∈ afterRecords)
    (hmatch : beforeByIdGet tableName beforeRecords (extractPrimaryKey a tableName) = some b) :
    (getChangedFields (filterFields b tableName config) (filterFields a tableName config) ≠ [] →
        pairedUpdateLog tableName config b a ∈
          createUpdateAuditLogs tableName beforeRecords afterRecords config)
    ∧ ((∀ x ∈ afterRecords, ∃ bx,
          beforeByIdGet tableName beforeRecords (extractPrimaryKey x tableName) = some bx ∧
          getChangedFields (filterFields bx tableName config)
            (filterFields x tableName config) = []) →
        createUpdateAuditLogs tableName beforeRecords afterRecords config = []) := by
  rw [createUpdate_changed_eq_filterMap tableName config beforeRecords afterRecords hcap hb]
  constructor
  · intro hdiff
    refine List.mem_filterMap.mpr ⟨a, ha, ?_⟩
    simp only [updateDecision, hmatch]
    have hlen : (getChangedFields (filterFields b tableName config)
        (filterFields a tableName config)).length > 0 :=
      List.length_pos.mpr hdiff
    simp [hlen]
  · intro hall
    refine List.filterMap_eq_nil_iff.mpr ?_
    intro x hx
    obtain ⟨bx, hbx, hzero⟩ := hall x hx
    simp [updateDecision, hbx, hzero]

/-- C2 witness: the amended theorem applied to the spec's test vector,
producing the single expected event. -/
theorem update_changed_emits_iff_diff_witness :
    pairedUpdateLog "users" sampleCfg beforeUser afterUser ∈
      createUpdateAuditLogs "users" [beforeUser] [afterUser] sampleCfg :=
  (update_changed_emits_iff_diff "users" sampleCfg [beforeUser] [afterUser] afterUser beforeUser
    rfl (by simp) (List.mem_singleton.mpr rfl) rfl).1 (by decide)

/-- C7: in old-value-capture mode with before-state present, an
after-record with no identity match in the before map yields the
create-like fallback event — the full filtered after-record, with no old
values and no changed-field list — rather than being skipped. -/
theorem update_changed_unmatched_falls_back (tableName : String) (config : CaptureConfig)
    (beforeRecords afterRecords : List Rec) (a : Rec)
    (hcap : config.captureOldValues = true) (hb : beforeRecords ≠ [])
    (ha : a ∈ afterRecords)
    (hnomatch : beforeByIdGet tableName beforeRecords (extractPrimaryKey a tableName) = none) :
    fullAfterLog tableName config a ∈
      createUpdateAuditLogs tableName beforeRecords afterRecords config := by
  rw [createUpdate_changed_eq_filterMap tableName config beforeRecords afterRecords hcap hb]
  refine List.mem_filterMap.mpr ⟨a, ha, ?_⟩
  simp [updateDecision, hnomatch]

/-- A second after-record with no before-state, for the mixed batch. -/
def freshUser : Rec := [("id", .vNum 2), ("name", .vStr "N")]

/-- C7 witness: in a batch where the first after-record has before-state
and the second does not, the second still yields the full-filtered-after
fallback event. -/
theorem update_changed_unmatched_falls_back_witness :
    fullAfterLog "users" sampleCfg freshUser ∈
      createUpdateAuditLogs "users" [beforeUser] [afterUser, freshUser] sampleCfg :=
  update_changed_unmatched_falls_back "users" sampleCfg [beforeUser] [afterUser, freshUser]
    freshUser rfl (by simp) (by simp) rfl

/-! ## Batched delivery queue (storage/batch-writer.ts, part_007)

The writer is modelled as an explicit state machine. JS is single
threaded, so state changes happen in the synchronous runs between await
points; each such run is one step function below. The sink (database
bulk insert) is external: its outcome is a parameter of the
write-completion step. Queue items are identified by their completion
handle (a number); the log payload plays no role in the queue claims. -/

/-- One queued item, identified by its completion handle. -/
abbrev QItem := Nat

/-- Outcome of one physical sink write. -/
inductive SinkOutcome where
  | ok : SinkOutcome
  | fail : SinkOutcome
deriving DecidableEq, Repr

/-- Errors thrown synchronously by queueAuditLogs. -/
inductive EnqErr where
  | shuttingDown : EnqErr
  | queueFull : EnqErr
deriving DecidableEq, Repr

/-- Writer configuration. maxQueueSize is the one field Modelled from
the spec: the backpressure cap documented in CHANGELOG 0.2.0 and
configured by the unit tests, whose implementing code is absent from
this snapshot of the writers; none means unbounded, matching the
snapshot's writers. -/
structure WriterCfg where
  batchSize : Nat
  maxQueueSize : Option Nat
  strictMode : Bool
  waitForWrite : Bool
deriving Repr

/-- Mutable state of one BatchAuditWriter instance: the queue array, the
isShuttingDown flag, the flush timer (flushTimeout ≠ null), the active
write promise together with its snapshot, and the number of flush()
callers awaiting that promise. -/
structure WState where
  queue : List QItem
  shuttingDown : Bool
  timerActive : Bool
  activeWrite : Option (List QItem)
  pendingFlushCallers : Nat
deriving Repr

/-- Observable outputs of a step: physical sink calls started, completion
handles settled (handle, success?), and outcomes delivered to flush()
callers. -/
structure StepOut where
  sinkCalls : List (List QItem)
  settles : List (QItem × Bool)
  flushResults : List SinkOutcome
deriving Repr

/-- No observable output. -/
def noOut : StepOut := { sinkCalls := [], settles := [], flushResults := [] }

/-- Concatenation of step outputs. -/
def outApp (a b : StepOut) : StepOut :=
  { sinkCalls := a.sinkCalls ++ b.sinkCalls
    settles := a.settles ++ b.settles
    flushResults := a.flushResults ++ b.flushResults }

/-- State of a freshly constructed writer: empty queue, timer scheduled. -/
def initialWriter : WState :=
  { queue := [], shuttingDown := false, timerActive := true
    activeWrite := none, pendingFlushCallers := 0 }

/-- flush() up to its first await (lines 196-214): if a write is already
in flight the call returns the in-flight promise (one more pending
caller, no new write); an empty queue returns immediately; otherwise the
whole queue is spliced out as the snapshot and a write on it starts. -/
def flushStart (s : WState) : WState × StepOut :=
  match s.activeWrite with
  | some _ => ({ s with pendingFlushCallers := s.pendingFlushCallers + 1 }, noOut)
  | none =>
    if s.queue.isEmpty then (s, noOut)
    else
      ({ s with queue := [], activeWrite := some s.queue, pendingFlushCallers := 1 },
       { sinkCalls := [s.queue], settles := [], flushResults := [] })

/-- Completion of the in-flight write (writeToDatabase, lines 220-283):
on success every snapshot item resolves; on failure every snapshot item
rejects and the rethrown error settles the write promise, so every
awaiting flush() caller receives the write's outcome. The finally
handler clears the active write. -/
def writeComplete (s : WState) (o : SinkOutcome) : WState × StepOut :=
  match s.activeWrite with
  | none => (s, noOut)
  | some snapshot =>
    ({ s with activeWrite := none, pendingFlushCallers := 0 },
     { sinkCalls := []
       settles := snapshot.map (fun i => (i, o == SinkOutcome.ok))
       flushResults := List.replicate s.pendingFlushCallers o })

/-- The push-and-maybe-flush tail of queueAuditLogs (lines 112-146):
push every item, then check the queue length against batchSize and start
a flush when the threshold is reached. -/
def enqueuePush (cfg : WriterCfg) (s : WState) (items : List QItem) :
    WState × StepOut × Option EnqErr :=
  let s1 := { s with queue := s.queue ++ items }
  if cfg.batchSize ≤ s1.queue.length then
    let (s2, out2) := flushStart s1
    (s2, out2, none)
  else
    (s1, noOut, none)

/-- queueAuditLogs (lines 100-164): reject when shutting down; return on
an empty batch; then the backpressure check Modelled from the spec ("if
queue.length + len(events) > maxQueueSize, reject the whole call before
any item is pushed" — absent from the snapshot's writers, see WriterCfg);
then push and maybe trigger a flush. The returned state is the queue
after the call; a returned error models the thrown exception. -/
def enqueueStep (cfg : WriterCfg) (s : WState) (items : List QItem) :
    WState × StepOut × Option EnqErr :=
  if s.shuttingDown then (s, noOut, some EnqErr.shuttingDown)
  else if items.isEmpty then (s, noOut, none)
  else
    match cfg.maxQueueSize with
    | some m =>
      if m < s.queue.length + items.length then (s, noOut, some EnqErr.queueFull)
      else enqueuePush cfg s items
    | none => enqueuePush cfg s items

/-- A sequence of queueAuditLogs calls (outcome flags dropped; the
theorems that use it preclude errors by hypothesis). -/
def enqueueMany (cfg : WriterCfg) : WState → List (List QItem) → WState × StepOut
  | s, [] => (s, noOut)
  | s, b :: bs =>
    let r1 := enqueueStep cfg s b
    let r2 := enqueueMany cfg r1.1 bs
    (r2.1, outApp r1.2.1 r2.2)

/-- shutdown (lines 289-311), as the sequential execution of its await
chain: a repeated call is a no-op; otherwise set isShuttingDown, cancel
the timer, await any in-flight write (outcome o1), then flush whatever
remains (outcome o2). -/
def shutdownStep (s : WState) (o1 o2 : SinkOutcome) : WState × StepOut :=
  if s.shuttingDown then (s, noOut)
  else
    let s1 := { s with shuttingDown := true, timerActive := false }
    let r1 := writeComplete s1 o1
    if r1.1.queue.isEmpty then (r1.1, r1.2)
    else
      let r2 := flushStart r1.1
      let r3 := writeComplete r2.1 o2
      (r3.1, outApp r1.2 (outApp r2.2 r3.2))

/-- C1 (backpressure, modelled from the spec): while the writer is
active, an enqueue whose batch would push the queue past maxQueueSize is
rejected as a whole before any item is pushed — the resulting state is
exactly the starting state (no partial enqueue, nothing flushed) and the
caller receives the queue-full error rather than a silent drop. -/
theorem enqueue_backpressure_rejects_whole_call (cfg : WriterCfg) (s : WState)
    (items : List QItem) (m : Nat)
    (hact : s.shuttingDown = false)
    (hmax : cfg.maxQueueSize = some m)
    (hne : items ≠ [])
    (hover : m < s.queue.length + items.length) :
    enqueueStep cfg s items = (s, noOut, some EnqErr.queueFull) := by
  have hne2 : items.isEmpty = false := by
    cases items with
    | nil => exact absurd rfl hne
    | cons x xs => rfl
  simp [enqueueStep, hact, hne2, hmax, hover]

/-- Writer configuration with a queue cap of two, for the C1 witness. -/
def cappedCfg : WriterCfg :=
  { batchSize := 10, maxQueueSize := some 2, strictMode := false, waitForWrite := false }

/-- Unbounded writer configuration matching the snapshot's writers. -/
def unboundedCfg : WriterCfg :=
  { batchSize := 10, maxQueueSize := none, strictMode := false, waitForWrite := false }

/-- Unbounded configuration with a small batch size, for the C5 witness. -/
def smallBatchCfg : WriterCfg :=
  { batchSize := 5, maxQueueSize := none, strictMode := false, waitForWrite := false }

/-- C1 witness: three events against an empty queue capped at two are
rejected and the queue stays empty. -/
theorem enqueue_backpressure_rejects_whole_call_witness :
    enqueueStep cappedCfg initialWriter [0, 1, 2] =
      (initialWriter, noOut, some EnqErr.queueFull) :=
  enqueue_backpressure_rejects_whole_call cappedCfg initialWriter [0, 1, 2] 2
    rfl rfl (by decide) (by decide)

/-- C3: a flush with no write in flight splices the whole queue out as
its snapshot and starts exactly one sink call on it; whatever the sink
outcome, completion settles every snapshot item (all resolved on ok, all
rejected on fail) and delivers that outcome to every caller of flush();
items enqueued while the write is in flight are not in the snapshot and
are still queued afterwards. -/
theorem flush_settles_whole_snapshot (cfg : WriterCfg) (s : WState) (es : List QItem)
    (o : SinkOutcome)
    (hact : s.activeWrite = none)
    (hq : s.queue ≠ [])
    (hsd : s.shuttingDown = false)
    (hmax : cfg.maxQueueSize = none) :
    (flushStart s).2.sinkCalls = [s.queue]
    ∧ (flushStart s).1.queue = []
    ∧ (enqueueStep cfg (flushStart s).1 es).2.2 = none
    ∧ (enqueueStep cfg (flushStart s).1 es).2.1.sinkCalls = []
    ∧ (enqueueStep cfg (flushStart s).1 es).1.queue = es
    ∧ (writeComplete (enqueueStep cfg (flushStart s).1 es).1 o).2.settles
        = s.queue.map (fun i => (i, o == SinkOutcome.ok))
    ∧ (writeComplete (enqueueStep cfg (flushStart s).1 es).1 o).2.flushResults ≠ []
    ∧ (writeComplete (enqueueStep cfg (flushStart s).1 es).1 o).2.flushResults.all
        (fun r => r == o) = true
    ∧ (writeComplete (enqueueStep cfg (flushStart s).1 es).1 o).1.queue = es
    ∧ (writeComplete (enqueueStep cfg (flushStart s).1 es).1 o).1.activeWrite = none := by
  have hq2 : s.queue.isEmpty = false := by
    cases h : s.queue with
    | nil => exact absurd h hq
    | cons x xs => rfl
  have hfs : flushStart s =
      ({ s with queue := [], activeWrite := some s.queue, pendingFlushCallers := 1 },
       { sinkCalls := [s.queue], settles := [], flushResults := [] }) := by
    simp [flushStart, hact, hq2]
  by_cases hes : es.isEmpty
  · have hes2 : es = [] := List.isEmpty_iff.mp hes
    simp [hfs, enqueueStep, hsd, hes, hes2, writeComplete, List.all_replicate, noOut]
  · have hes2 : es.isEmpty = false := Bool.not_eq_true _ ▸ by simpa using hes
    by_cases hb : cfg.batchSize ≤ es.length
    · simp [hfs, enqueueStep, hsd, hes2, hmax, enqueuePush, hb, flushStart, hact, hq,
        writeComplete, List.all_replicate, noOut]
    · simp [hfs, enqueueStep, hsd, hes2, hmax, enqueuePush, hb, writeComplete, hact, hq,
        List.all_replicate, noOut]

/-- C3 witness: a two-item queue is flushed while one more item arrives;
on a failing sink write both snapshot items are rejected, the failure
reaches the flush caller, and the late item is still queued. -/
theorem flush_settles_whole_snapshot_witness :
    ((flushStart { initialWriter with queue := [10, 11] }).2.sinkCalls = [[10, 11]])
    ∧ (writeComplete
        (enqueueStep unboundedCfg
          (flushStart { initialWriter with queue := [10, 11] }).1 [12]).1
        SinkOutcome.fail).2.settles = [(10, false), (11, false)]
    ∧ (writeComplete
        (enqueueStep unboundedCfg
          (flushStart { initialWriter with queue := [10, 11] }).1 [12]).1
        SinkOutcome.fail).1.queue = [12] := by
  have h := flush_settles_whole_snapshot unboundedCfg
    { initialWriter with queue := [10, 11] } [12] SinkOutcome.fail
    rfl (by decide) rfl rfl
  exact ⟨h.1, h.2.2.2.2.2.1, h.2.2.2.2.2.2.2.2.1⟩

/-- C4: a flush() call arriving while a write is in flight starts no
second sink call and leaves queue and snapshot untouched; so two
back-to-back flush() calls on a pending queue cause exactly one physical
sink call, and when that write completes both callers receive its
outcome. -/
theorem flush_at_most_one_active_write (s : WState) (o : SinkOutcome)
    (hact : s.activeWrite = none)
    (hq : s.queue ≠ []) :
    (flushStart s).2.sinkCalls = [s.queue]
    ∧ (flushStart (flushStart s).1).2.sinkCalls = []
    ∧ (flushStart (flushStart s).1).1.queue = (flushStart s).1.queue
    ∧ (flushStart (flushStart s).1).1.activeWrite = some s.queue
    ∧ (writeComplete (flushStart (flushStart s).1).1 o).2.flushResults = [o, o]
    ∧ (writeComplete (flushStart (flushStart s).1).1 o).2.sinkCalls = [] := by
  have hq2 : s.queue.isEmpty = false := by
    cases h : s.queue with
    | nil => exact absurd h hq
    | cons x xs => rfl
  simp [flushStart, hact, hq2, writeComplete, List.replicate, noOut]

/-- C4 witness: two flush() calls against a one-item queue with a slow
write produce one sink call and two identical completions. -/
theorem flush_at_most_one_active_write_witness :
    (flushStart { initialWriter with queue := [7] }).2.sinkCalls = [[7]]
    ∧ (flushStart (flushStart { initialWriter with queue := [7] }).1).2.sinkCalls = []
    ∧ (writeComplete (flushStart (flushStart { initialWriter with queue := [7] }).1).1
        SinkOutcome.ok).2.flushResults = [SinkOutcome.ok, SinkOutcome.ok] := by
  have h := flush_at_most_one_active_write { initialWriter with queue := [7] }
    SinkOutcome.ok rfl (by decide)
  exact ⟨h.1, h.2.1, h.2.2.2.2.1⟩

lemma enqueueMany_under_threshold (cfg : WriterCfg) (hmax : cfg.maxQueueSize = none) :
    ∀ (batches : List (List QItem)) (s : WState),
      s.shuttingDown = false →
      s.activeWrite = none →
      s.queue.length + (batches.map List.length).sum < cfg.batchSize →
      enqueueMany cfg s batches = ({ s with queue := s.queue ++ batches.flatten }, noOut) := by
  intro batches
  induction batches with
  | nil =>
    intro s hsd hact hlen
    simp [enqueueMany, noOut]
  | cons b bs ih =>
    intro s hsd hact hlen
    by_cases hb : b.isEmpty
    · have hb2 : b = [] := List.isEmpty_iff.mp hb
      subst hb2
      have h1 : enqueueStep cfg s [] = (s, noOut, none) := by
        simp [enqueueStep, hsd]
      have hlen2 : s.queue.length + (bs.map List.length).sum < cfg.batchSize := by
        simp at hlen
        omega
      simp [enqueueMany, h1, ih s hsd hact hlen2, outApp, noOut]
    · have hb2 : b.isEmpty = false := Bool.not_eq_true _ ▸ by simpa using hb
      have hthresh : ¬ cfg.batchSize ≤ s.queue.length + b.length := by
        simp only [List.map_cons, List.sum_cons] at hlen
        omega
      have h1 : enqueueStep cfg s b =
          ({ s with queue := s.queue ++ b }, noOut, none) := by
        simp [enqueueStep, hsd, hb2, hmax, enqueuePush, hthresh]
      have hlen2 : ({ s with queue := s.queue ++ b } : WState).queue.length
          + (bs.map List.length).sum < cfg.batchSize := by
        simp only [List.length_append, List.map_cons, List.sum_cons] at hlen ⊢
        omega
      have h2 := ih { s with queue := s.queue ++ b } (by simpa using hsd) (by simpa using hact)
        hlen2
      simp [enqueueMany, h1, h2, outApp, noOut]

/-- C5: enqueue some batches totalling K events (K below the size
trigger, the flush interval longer than the run), then shut down: the
shutdown cancels the timer and performs one final flush, the sink
receives exactly the K enqueued events, every completion handle settles,
the queue reports size 0 — and a second shutdown call is a no-op. -/
theorem shutdown_delivers_everything (cfg : WriterCfg) (batches : List (List QItem))
    (o : SinkOutcome)
    (hmax : cfg.maxQueueSize = none)
    (hlen : (batches.map List.length).sum < cfg.batchSize) :
    (enqueueMany cfg initialWriter batches).2.sinkCalls = []
    ∧ (shutdownStep (enqueueMany cfg initialWriter batches).1 o o).2.sinkCalls.flatten
        = batches.flatten
    ∧ (shutdownStep (enqueueMany cfg initialWriter batches).1 o o).2.settles
        = batches.flatten.map (fun i => (i, o == SinkOutcome.ok))
    ∧ (shutdownStep (enqueueMany cfg initialWriter batches).1 o o).1.queue = []
    ∧ (shutdownStep (enqueueMany cfg initialWriter batches).1 o o).1.timerActive = false
    ∧ shutdownStep (shutdownStep (enqueueMany cfg initialWriter batches).1 o o).1 o o
        = ((shutdownStep (enqueueMany cfg initialWriter batches).1 o o).1, noOut) := by
  have hrun := enqueueMany_under_threshold cfg hmax batches initialWriter rfl rfl
    (by simpa [initialWriter] using hlen)
  rw [hrun]
  by_cases hj : batches.flatten.isEmpty
  · have hj2 : batches.flatten = [] := List.isEmpty_iff.mp hj
    simp [shutdownStep, initialWriter, hj2, writeComplete, noOut, outApp]
  · have hj2 : batches.flatten.isEmpty = false := Bool.not_eq_true _ ▸ by simpa using hj
    simp [shutdownStep, initialWriter, hj2, writeComplete, flushStart, noOut, outApp]

/-- C5 witness: two batches of one and two events drain as exactly those
three events on shutdown, all handles resolved, queue left empty,
repeated shutdown a no-op. -/
theorem shutdown_delivers_everything_witness :
    (shutdownStep (enqueueMany smallBatchCfg initialWriter [[0], [1, 2]]).1
      SinkOutcome.ok SinkOutcome.ok).2.sinkCalls.flatten = [0, 1, 2]
    ∧ (shutdownStep (enqueueMany smallBatchCfg initialWriter [[0], [1, 2]]).1
      SinkOutcome.ok SinkOutcome.ok).1.queue = [] := by
  have h := shutdown_delivers_everything smallBatchCfg
    [[0], [1, 2]] SinkOutcome.ok rfl (by decide)
  exact ⟨h.2.1, h.2.2.2.1⟩

/-! ## Default writer metadata path (storage/writer.ts) and safeSerialize
on acyclic values (utils/serializer.ts). -/

mutual

/-- serializer.ts safeSerialize on the acyclic value type: Date becomes
its ISO string, bigint its decimal string, arrays and objects recurse,
null/undefined and the remaining primitives pass through. (The general
object-graph form, including its behavior on self-referential values, is
modelled separately on the reference heap below.) -/
def safeSerialize : JsValue → JsValue
  | .vNull => .vNull
  | .vUndefined => .vUndefined
  | .vDate ms => .vStr (dateToISO ms)
  | .vBigInt n => .vStr (toString n)
  | .vArr xs => .vArr (safeSerializeList xs)
  | .vObj fs => .vObj (safeSerializeFields fs)
  | v => v

def safeSerializeList : List JsValue → List JsValue
  | [] => []
  | x :: xs => safeSerialize x :: safeSerializeList xs

def safeSerializeFields : List (String × JsValue) → List (String × JsValue)
  | [] => []
  | (k, v) :: fs => (k, safeSerialize v) :: safeSerializeFields fs

end

/-- Assignment of one key during object spread: an existing key keeps
its position and takes the new value, a new key is appended. -/
def recSetKey (r : Rec) (k : String) (v : JsValue) : Rec :=
  if (r.find? (fun kv => kv.1 == k)).isSome then
    r.map (fun kv => if kv.1 == k then (k, v) else kv)
  else
    r ++ [(k, v)]

/-- Spreading one source object into an accumulator. -/
def spreadInto (acc : Rec) (src : Rec) : Rec :=
  src.foldl (fun a kv => recSetKey a kv.1 kv.2) acc

/-- writer.ts line 31, metadata: { ...metadata, ...context?.metadata,
...log.metadata } — spreading undefined spreads nothing. -/
def mergeMetadataSpread (defaultMeta : Rec) (contextMeta logMeta : Option Rec) : Rec :=
  spreadInto (spreadInto (spreadInto [] defaultMeta) (contextMeta.getD []))
    (logMeta.getD [])

/-- JS truthiness of an object value: every object is truthy, the empty
object included. -/
def isTruthyObject (_ : Rec) : Bool := true

/-- The stored metadata column for one entry (writer.ts lines 31 and 62):
the spread-merged object, serialized when truthy, null otherwise. -/
def writerStoredMetadata (defaultMeta : Rec) (contextMeta logMeta : Option Rec) :
    Option JsValue :=
  let merged := mergeMetadataSpread defaultMeta contextMeta logMeta
  if isTruthyObject merged then some (safeSerialize (.vObj merged)) else none

/-- C8: the default writer never stores the explicit empty metadata
value. The spread merge always yields an object and a JS object is
always truthy — {} included — so the entry.metadata ? ... : null test
never takes the null branch: with all three sources empty the stored
metadata is the present-but-empty object, not null (contradicting the
claim and CHANGELOG 0.1.1 "fix: store null metadata when empty"). -/
theorem writer_stores_empty_object_not_null :
    writerStoredMetadata [] none none = some (JsValue.vObj [])
    ∧ ∀ (d : Rec) (c l : Option Rec), writerStoredMetadata d c l ≠ none := by
  constructor
  · rfl
  · intro d c l
    simp [writerStoredMetadata, isTruthyObject]

/-! ## shouldAudit (core/AuditLogger.ts). -/

/-- The tables option: "*" (audit everything) or an explicit list. -/
inductive TablesCfg where
  | star : TablesCfg
  | only : List String → TablesCfg

/-- The slice of NormalizedConfig that shouldAudit reads. -/
structure LoggerCfg where
  tables : TablesCfg
  auditTable : String

/-- AuditLogger.shouldAudit (lines 58-69): never audit the audit table
itself, then the "*" wildcard, then the explicit list. -/
def shouldAudit (cfg : LoggerCfg) (tableName : String) : Bool :=
  if tableName == cfg.auditTable then false
  else
    match cfg.tables with
    | .star => true
    | .only ts => tableName ∈ ts

/-- C10: writes to the configured audit table are never audited,
whatever the tables configuration — including "*" — so the logger cannot
recurse into auditing its own audit inserts. -/
theorem shouldAudit_never_self (cfg : LoggerCfg) (tableName : String)
    (h : tableName = cfg.auditTable) : shouldAudit cfg tableName = false := by
  simp [shouldAudit, h]

/-- C10 witness: with tables = "*" and the default audit table name, the
audit table itself is not audited. -/
theorem shouldAudit_never_self_witness :
    shouldAudit { tables := TablesCfg.star, auditTable := "audit_logs" } "audit_logs"
      = false :=
  shouldAudit_never_self { tables := TablesCfg.star, auditTable := "audit_logs" }
    "audit_logs" rfl

/-! ## Reference-heap model of object graphs

JS objects are heap references, and self-referential graphs cannot be
inductive values, so the graph-sensitive functions — serializer.ts
safeSerialize and primary-key.ts safeStringifyForPK / extractPrimaryKey —
are modelled on an explicit heap: nodes addressed by ordinals, each node
a primitive, an object (named fields holding references) or an array of
references. Recursion is expressed with a fuel parameter; heap-size fuel
is proved sufficient wherever the JS function terminates, and a cyclic
input on which no fuel suffices witnesses non-termination. -/

/-- A primitive JS value on the heap. -/
inductive JPrim where
  | pNull : JPrim
  | pUndefined : JPrim
  | pBool : Bool → JPrim
  | pNum : Int → JPrim
  | pStr : String → JPrim
  | pBigInt : Int → JPrim
  | pDate : Int → JPrim
deriving DecidableEq, Repr

/-- A heap address. -/
abbrev JRef := Nat

/-- One heap node. -/
inductive JNode where
  | nPrim : JPrim → JNode
  | nObj : List (String × JRef) → JNode
  | nArr : List JRef → JNode
deriving DecidableEq, Repr

/-- An object graph: node list addressed by position. -/
structure JHeap where
  nodes : List JNode
deriving Repr

/-- Heap lookup. -/
def JHeap.deref (h : JHeap) (r : JRef) : Option JNode := h.nodes.get? r

/-- Number of heap nodes. -/
def JHeap.size (h : JHeap) : Nat := h.nodes.length

/-- The references held directly by a node. -/
def nodeRefs : JNode → List JRef
  | .nPrim _ => []
  | .nObj fs => fs.map (·.2)
  | .nArr es => es

/-- Heap well-formedness: every stored reference is a valid address. -/
def WfHeap (h : JHeap) : Bool :=
  h.nodes.all (fun n => (nodeRefs n).all (fun r => r < h.size))

/-- The references held by the node at an address. -/
def childRefs (h : JHeap) (r : JRef) : List JRef :=
  match h.deref r with
  | some n => nodeRefs n
  | none => []

mutual

/-- serializer.ts safeSerialize on the heap: the same shape as the plain
safeSerialize above but following references, with fuel bounding the
recursion depth. The source has no seen-set, so a cycle consumes any
amount of fuel (in JS: unbounded recursion until the stack overflows). -/
def safeSerializeG : Nat → JHeap → JRef → Option JsValue
  | 0, _, _ => none
  | fuel + 1, h, r =>
    match h.deref r with
    | none => none
    | some (.nPrim .pNull) => some .vNull
    | some (.nPrim .pUndefined) => some .vUndefined
    | some (.nPrim (.pBool b)) => some (.vBool b)
    | some (.nPrim (.pNum n)) => some (.vNum n)
    | some (.nPrim (.pStr s)) => some (.vStr s)
    | some (.nPrim (.pBigInt n)) => some (.vStr (toString n))
    | some (.nPrim (.pDate ms)) => some (.vStr (dateToISO ms))
    | some (.nArr es) => (safeSerializeGElems fuel h es).map .vArr
    | some (.nObj fs) => (safeSerializeGFields fuel h fs).map .vObj

def safeSerializeGElems : Nat → JHeap → List JRef → Option (List JsValue)
  | _, _, [] => some []
  | fuel, h, e :: es =>
    match safeSerializeG fuel h e, safeSerializeGElems fuel h es with
    | some v, some vs => some (v :: vs)
    | _, _ => none

def safeSerializeGFields : Nat → JHeap → List (String × JRef) → Option (List (String × JsValue))
  | _, _, [] => some []
  | fuel, h, (k, v) :: fs =>
    match safeSerializeG fuel h v, safeSerializeGFields fuel h fs with
    | some w, some ws => some ((k, w) :: ws)
    | _, _ => none

end

/-- The computation runs out of any amount of fuel: the JS recursion
does not terminate on this input. -/
def serializeDiverges (h : JHeap) (r : JRef) : Prop :=
  ∀ fuel, safeSerializeG fuel h r = none

/-- The one-node self-referential object a = { self: a }. -/
def cycHeap : JHeap := { nodes := [.nObj [("self", 0)]] }

/-- C9 counterexample: on the self-referential object { self: a } = a,
safeSerialize never produces a result however much fuel it is given —
the source has no repeated-reference sentinel, so the recursion does not
terminate (in JS, a stack overflow), refuting termination for every
input. -/
theorem safeSerialize_diverges_on_cycle : serializeDiverges cycHeap 0 := by
  intro fuel
  induction fuel with
  | zero => simp [safeSerializeG]
  | succ f ih =>
    simp only [safeSerializeG, cycHeap, JHeap.deref, List.get?]
    cases f with
    | zero => simp [safeSerializeGFields, safeSerializeG]
    | succ g =>
      simp only [safeSerializeGFields]
      simp only [cycHeap, JHeap.deref, List.get?] at ih
      rw [ih]
      rfl

/-- Acyclicity certificate: a rank assignment (by address) that strictly
decreases along every reference edge. A finite graph admits one exactly
when it has no reference cycle. -/
def RankedB (h : JHeap) (rank : List Nat) : Bool :=
  (List.range h.size).all (fun a => (childRefs h a).all (fun b => rank.getD b 0 < rank.getD a 0))

lemma wf_child_lt (h : JHeap) (hwf : WfHeap h = true) (r e : JRef)
    (he : e ∈ childRefs h r) : e < h.size := by
  unfold childRefs at he
  cases hd : h.deref r with
  | none => rw [hd] at he; exact absurd he (List.not_mem_nil e)
  | some n =>
    rw [hd] at he
    have hmem : n ∈ h.nodes := List.get?_mem hd
    have := (List.all_eq_true.mp hwf) n hmem
    have := (List.all_eq_true.mp this) e he
    exact of_decide_eq_true this

lemma ranked_child (h : JHeap) (rank : List Nat) (hrk : RankedB h rank = true)
    (r e : JRef) (hr : r < h.size) (he : e ∈ childRefs h r) :
    rank.getD e 0 < rank.getD r 0 := by
  have hrmem : r ∈ List.range h.size := List.mem_range.mpr hr
  have := (List.all_eq_true.mp hrk) r hrmem
  have := (List.all_eq_true.mp this) e he
  exact of_decide_eq_true this

lemma safeSerializeGElems_total (fuel : Nat) (h : JHeap) (es : List JRef)
    (hall : ∀ e ∈ es, (safeSerializeG fuel h e).isSome) :
    (safeSerializeGElems fuel h es).isSome := by
  induction es with
  | nil => simp [safeSerializeGElems]
  | cons e es ih =>
    obtain ⟨v, hv⟩ := Option.isSome_iff_exists.mp (hall e (List.mem_cons_self e es))
    obtain ⟨vs, hvs⟩ := Option.isSome_iff_exists.mp
      (ih (fun x hx => hall x (List.mem_cons_of_mem e hx)))
    simp [safeSerializeGElems, hv, hvs]

lemma safeSerializeGFields_total (fuel : Nat) (h : JHeap) (fs : List (String × JRef))
    (hall : ∀ kv ∈ fs, (safeSerializeG fuel h kv.2).isSome) :
    (safeSerializeGFields fuel h fs).isSome := by
  induction fs with
  | nil => simp [safeSerializeGFields]
  | cons kv fs ih =>
    obtain ⟨v, hv⟩ := Option.isSome_iff_exists.mp (hall kv (List.mem_cons_self kv fs))
    obtain ⟨vs, hvs⟩ := Option.isSome_iff_exists.mp
      (ih (fun x hx => hall x (List.mem_cons_of_mem kv hx)))
    cases kv with
    | mk k r => simp [safeSerializeGFields, hv, hvs]

lemma safeSerializeG_total_aux (h : JHeap) (rank : List Nat)
    (hwf : WfHeap h = true) (hrk : RankedB h rank = true) :
    ∀ fuel r, r < h.size → rank.getD r 0 < fuel → (safeSerializeG fuel h r).isSome := by
  intro fuel
  induction fuel using Nat.strong_induction_on with
  | _ fuel IH =>
    intro r hr hf
    cases fuel with
    | zero => omega
    | succ f =>
      have hget : h.deref r = some (h.nodes.get ⟨r, hr⟩) := List.get?_eq_get hr
      have hchild : ∀ e ∈ childRefs h r, (safeSerializeG f h e).isSome := by
        intro e he
        refine IH f (Nat.lt_succ_self f) e (wf_child_lt h hwf r e he) ?_
        have h1 := ranked_child h rank hrk r e hr he
        omega
      cases hn : h.nodes.get ⟨r, hr⟩ with
      | nPrim p =>
        rw [hn] at hget
        cases p <;> simp [safeSerializeG, hget]
      | nObj fs =>
        rw [hn] at hget
        have : childRefs h r = fs.map (·.2) := by simp [childRefs, hget, nodeRefs]
        have hall : ∀ kv ∈ fs, (safeSerializeG f h kv.2).isSome := by
          intro kv hkv
          exact hchild kv.2 (this ▸ List.mem_map_of_mem (·.2) hkv)
        have := safeSerializeGFields_total f h fs hall
        simp [safeSerializeG, hget, Option.isSome_map, this]
      | nArr es =>
        rw [hn] at hget
        have : childRefs h r = es := by simp [childRefs, hget, nodeRefs]
        have hall : ∀ e ∈ es, (safeSerializeG f h e).isSome := by
          intro e he
          exact hchild e (this ▸ he)
        have := safeSerializeGElems_total f h es hall
        simp [safeSerializeG, hget, Option.isSome_map, this]

/-- C9 (amended): for every acyclic object graph the serializer
terminates with a result (so it never raises on such inputs), bigint
values become their exact decimal strings and Date values their ISO
strings; self-referential graphs, however, are not handled — see the
companion counterexample — so the amendment restricts termination to
acyclic inputs and drops the sentinel clause. -/
theorem safeSerialize_total_on_acyclic :
    (∀ (h : JHeap) (rank : List Nat) (fuel : Nat) (r : JRef),
      WfHeap h = true → RankedB h rank = true → r < h.size → rank.getD r 0 < fuel →
        (safeSerializeG fuel h r).isSome)
    ∧ (∀ (h : JHeap) (fuel : Nat) (r : JRef) (n : Int),
        h.deref r = some (.nPrim (.pBigInt n)) →
          safeSerializeG (fuel + 1) h r = some (.vStr (toString n)))
    ∧ (∀ (h : JHeap) (fuel : Nat) (r : JRef) (ms : Int),
        h.deref r = some (.nPrim (.pDate ms)) →
          safeSerializeG (fuel + 1) h r = some (.vStr (dateToISO ms))) := by
  refine ⟨?_, ?_, ?_⟩
  · intro h rank fuel r hwf hrk hr hf
    exact safeSerializeG_total_aux h rank hwf hrk fuel r hr hf
  · intro h fuel r n hget
    simp [safeSerializeG, hget]
  · intro h fuel r ms hget
    simp [safeSerializeG, hget]

/-- An acyclic record with a huge bigint field and a Date field. -/
def acycHeap : JHeap :=
  { nodes := [.nObj [("big", 1), ("when", 2)],
              .nPrim (.pBigInt 1000000000000000000000000000000),
              .nPrim (.pDate 1700000000000)] }

/-- C9 witness: the amended theorem applied to the concrete acyclic
record: serialization succeeds in heap-sized fuel, and the bigint and
Date fields serialize to their decimal and ISO strings. -/
theorem safeSerialize_total_on_acyclic_witness :
    (safeSerializeG 2 acycHeap 0).isSome
    ∧ safeSerializeG 1 acycHeap 1 = some (.vStr "1000000000000000000000000000000")
    ∧ safeSerializeG 1 acycHeap 2 = some (.vStr (dateToISO 1700000000000)) :=
  ⟨safeSerialize_total_on_acyclic.1 acycHeap [1, 0, 0] 2 0 (by decide) (by decide)
      (by decide) (by decide),
   safeSerialize_total_on_acyclic.2.1 acycHeap 0 1 1000000000000000000000000000000 rfl,
   safeSerialize_total_on_acyclic.2.2 acycHeap 0 2 1700000000000 rfl⟩

/-! ## primary-key.ts on the reference heap (part_011, current version)

safeStringifyForPK is JSON.stringify with a replacer holding a WeakSet:
bigint becomes its decimal string and Date its ISO string (both then
JSON-quoted), and an object or array already in the set renders as the
"[Circular]" sentinel; the set is never cleared, so it also cuts
repeated (DAG) references, and it bounds the recursion by the number of
heap nodes. String(v), used for the single-key paths, renders objects as
"[object Object]" without recursing and joins arrays with commas, with
the engine's join guard rendering an array already being joined as the
empty string. -/

/-- Whether a reference points at the undefined primitive. -/
def isUndefRef (h : JHeap) (r : JRef) : Bool :=
  match h.deref r with
  | some (.nPrim .pUndefined) => true
  | _ => false

/-- Whether a reference points at null or undefined. -/
def isNullishRef (h : JHeap) (r : JRef) : Bool :=
  match h.deref r with
  | some (.nPrim .pNull) => true
  | some (.nPrim .pUndefined) => true
  | _ => false

/-- The JSON text of a primitive under safeStringifyForPK's replacer
(undefined only reaches this in array position, where it prints null). -/
def jsonPrimText : JPrim → String
  | .pNull => "null"
  | .pUndefined => "null"
  | .pBool b => if b then "true" else "false"
  | .pNum n => toString n
  | .pStr s => jsonQuote s
  | .pBigInt n => jsonQuote (toString n)
  | .pDate ms => jsonQuote (dateToISO ms)

/-- String(v) for a primitive. -/
def strOfPrim : JPrim → String
  | .pNull => "null"
  | .pUndefined => "undefined"
  | .pBool b => if b then "true" else "false"
  | .pNum n => toString n
  | .pStr s => s
  | .pBigInt n => toString n
  | .pDate ms => dateToText ms

mutual

/-- JSON.stringify under the replacer with the persistent seen set,
threaded left to right through the whole traversal exactly as the
WeakSet is. Returns the rendered text and the grown seen set; none only
on fuel exhaustion. -/
def strPKG : Nat → JHeap → List JRef → JRef → Option (String × List JRef)
  | 0, h, seen, r =>
    match h.deref r with
    | some (.nPrim p) => some (jsonPrimText p, seen)
    | some (.nObj _) => if r ∈ seen then some (jsonQuote "[Circular]", seen) else none
    | some (.nArr _) => if r ∈ seen then some (jsonQuote "[Circular]", seen) else none
    | none => none
  | fuel + 1, h, seen, r =>
    match h.deref r with
    | none => none
    | some (.nPrim p) => some (jsonPrimText p, seen)
    | some (.nObj fs) =>
      if r ∈ seen then some (jsonQuote "[Circular]", seen)
      else
        match strPKGFields fuel h (r :: seen) fs with
        | some (parts, seen2) =>
          some ("\x7b" ++ String.intercalate "," parts ++ "\x7d", seen2)
        | none => none
    | some (.nArr es) =>
      if r ∈ seen then some (jsonQuote "[Circular]", seen)
      else
        match strPKGElems fuel h (r :: seen) es with
        | some (parts, seen2) =>
          some ("[" ++ String.intercalate "," parts ++ "]", seen2)
        | none => none

/-- Field list of an object: a field whose value is undefined is
omitted; the seen set threads through the remaining fields. -/
def strPKGFields : Nat → JHeap → List JRef → List (String × JRef) →
    Option (List String × List JRef)
  | _, _, seen, [] => some ([], seen)
  | fuel, h, seen, (k, v) :: fs =>
    if isUndefRef h v then strPKGFields fuel h seen fs
    else
      match strPKG fuel h seen v with
      | some (s, seen2) =>
        match strPKGFields fuel h seen2 fs with
        | some (ss, seen3) => some ((jsonQuote k ++ ":" ++ s) :: ss, seen3)
        | none => none
      | none => none

/-- Array elements; the seen set threads through. -/
def strPKGElems : Nat → JHeap → List JRef → List JRef →
    Option (List String × List JRef)
  | _, _, seen, [] => some ([], seen)
  | fuel, h, seen, e :: es =>
    match strPKG fuel h seen e with
    | some (s, seen2) =>
      match strPKGElems fuel h seen2 es with
      | some (ss, seen3) => some (s :: ss, seen3)
      | none => none
    | none => none

end

mutual

/-- String(v) on the heap: primitives by strOfPrim, objects as
"[object Object]" (no property recursion), arrays joined with commas
under the engine's join guard — an array already on the join stack
renders as the empty string, which is what cuts cycles. -/
def jsToStrG : Nat → JHeap → List JRef → JRef → Option String
  | 0, h, stack, r =>
    match h.deref r with
    | none => none
    | some (.nPrim p) => some (strOfPrim p)
    | some (.nObj _) => some "[object Object]"
    | some (.nArr _) => if r ∈ stack then some "" else none
  | fuel + 1, h, stack, r =>
    match h.deref r with
    | none => none
    | some (.nPrim p) => some (strOfPrim p)
    | some (.nObj _) => some "[object Object]"
    | some (.nArr es) =>
      if r ∈ stack then some ""
      else (jsToStrGElems fuel h (r :: stack) es).map (String.intercalate ",")

/-- Array elements under join: null and undefined render as the empty
string, everything else as its String(v). -/
def jsToStrGElems : Nat → JHeap → List JRef → List JRef → Option (List String)
  | _, _, _, [] => some []
  | fuel, h, stack, e :: es =>
    match
      (if isNullishRef h e then some "" else jsToStrG fuel h stack e),
      jsToStrGElems fuel h stack es with
    | some s, some ss => some (s :: ss)
    | _, _ => none

end

/-- record[k] as a reference, when the key is present. -/
def fieldsGet (fs : List (String × JRef)) (k : String) : Option JRef :=
  (fs.find? (fun kv => kv.1 == k)).map (·.2)

/-- Whether record[k] dereferences to null or undefined (the JS
value == null test); an absent key reads as undefined. -/
def fieldIsNullish (h : JHeap) (fs : List (String × JRef)) (k : String) : Bool :=
  match fieldsGet fs k with
  | none => true
  | some v =>
    match h.deref v with
    | some (.nPrim .pNull) => true
    | some (.nPrim .pUndefined) => true
    | _ => false

/-- The JS test (field in record && record[field] != null): key present
with a value that is neither null nor undefined. -/
def fieldUsable (h : JHeap) (fs : List (String × JRef)) (k : String) : Bool :=
  (fieldsGet fs k).isSome && ¬ fieldIsNullish h fs k

/-- Lexicographic comparison of character lists by code point, the
Array.sort default order on strings. -/
def charsLe : List Char → List Char → Bool
  | [], _ => true
  | _ :: _, [] => false
  | c :: cs, d :: ds =>
    if c.toNat < d.toNat then true
    else if d.toNat < c.toNat then false
    else charsLe cs ds

/-- Array.sort's default string order. -/
def strLe (a b : String) : Bool := charsLe a.data b.data

/-- Insertion of a string into a sorted list. -/
def insertStr (x : String) : List String → List String
  | [] => [x]
  | y :: ys => if strLe x y then x :: y :: ys else y :: insertStr x ys

/-- Sorting the key names, as Object.keys(record).sort(). -/
def sortStr : List String → List String
  | [] => []
  | x :: xs => insertStr x (sortStr xs)

/-- The catch-branch fallback of safeStringifyForPK:
composite_key_{sorted keys joined by _}_{key count}. -/
def fallbackPK (keys : List String) : String :=
  "composite_key_" ++ String.intercalate "_" (sortStr keys) ++ "_" ++ toString keys.length

/-- safeStringifyForPK on a field list: the try branch is the
JSON.stringify traversal (heap-sized fuel, proved sufficient below);
the catch branch is the stable fallback built from the sorted field
names and the field count. seen0 is [root] when the record is the heap
node root itself (the replacer sees the root first and adds it), and []
for the synthetic object built by the configured-key path. -/
def safeStringifyForPKG (h : JHeap) (seen0 : List JRef) (fs : List (String × JRef)) :
    String :=
  match strPKGFields (h.size + 1) h seen0 fs with
  | some (parts, _) => "\x7b" ++ String.intercalate "," parts ++ "\x7d"
  | none => fallbackPK (fs.map (·.1))

/-- extractConfiguredPrimaryKey: resolve every configured key field; any
null/undefined (or absent) field aborts with none so the common path
runs instead; a single non-empty key name yields String(value), anything
else the safe serialization of the resolved field→value object. -/
def extractConfiguredPKG (h : JHeap) (fs : List (String × JRef)) (keys : List String) :
    Option String :=
  let resolved : Option (List (String × JRef)) :=
    keys.foldr
      (fun k acc =>
        match acc with
        | none => none
        | some rest =>
          if fieldIsNullish h fs k then none
          else (fieldsGet fs k).map (fun v => (k, v) :: rest))
      (some [])
  match resolved with
  | none => none
  | some resolvedFields =>
    match keys with
    | [k] =>
      if k = "" then some (safeStringifyForPKG h [] resolvedFields)
      else (fieldsGet fs k).bind (fun v => jsToStrG (h.size + 1) h [] v)
    | _ => some (safeStringifyForPKG h [] resolvedFields)

/-- primary-key.ts extractPrimaryKey on a heap record: the configured
key spec if it resolves, then the common key names id, {table}_id,
uuid, pk, then the first key whose lowercase name ends in "id" with a
non-null value, and as a last resort the safe serialization of the whole
record. none only when the root is not an object (outside the TS record
type) or on fuel exhaustion, which the totality theorem rules out. -/
def extractPrimaryKeyG (h : JHeap) (root : JRef) (tableName : String)
    (keySpec : Option (List String)) : Option String :=
  match h.deref root with
  | some (.nObj fs) =>
    match keySpec.bind (extractConfiguredPKG h fs) with
    | some s => some s
    | none =>
      match ["id", tableName ++ "_id", "uuid", "pk"].find? (fieldUsable h fs) with
      | some k => (fieldsGet fs k).bind (fun v => jsToStrG (h.size + 1) h [] v)
      | none =>
        match (fs.map (·.1)).find?
            (fun k => (k.toLower.endsWith "id") && fieldUsable h fs k) with
        | some k => (fieldsGet fs k).bind (fun v => jsToStrG (h.size + 1) h [] v)
        | none => some (safeStringifyForPKG h [root] fs)
  | _ => none

/-- The number of valid addresses not yet in the seen set: the measure
that shrinks each time the traversal enters a new object. -/
def unseenCount (h : JHeap) (seen : List JRef) : Nat :=
  ((Finset.range h.size).filter (fun a => ¬ a ∈ seen)).card

lemma unseenCount_mono (h : JHeap) (seen seen2 : List JRef) (hsub : seen ⊆ seen2) :
    unseenCount h seen2 ≤ unseenCount h seen := by
  refine Finset.card_le_card (Finset.monotone_filter_right _ ?_)
  intro a hna hmem
  exact hna (hsub hmem)

lemma unseenCount_push (h : JHeap) (seen : List JRef) (r : JRef)
    (hr : r < h.size) (hns : ¬ r ∈ seen) :
    unseenCount h (r :: seen) < unseenCount h seen := by
  refine Finset.card_lt_card ?_
  have hsub : (Finset.range h.size).filter (fun a => ¬ a ∈ r :: seen) ⊆
      (Finset.range h.size).filter (fun a => ¬ a ∈ seen) := by
    refine Finset.monotone_filter_right _ ?_
    intro a hna hmem
    exact hna (List.mem_cons_of_mem r hmem)
  rw [Finset.ssubset_iff_of_subset hsub]
  refine ⟨r, ?_, ?_⟩
  · exact Finset.mem_filter.mpr ⟨Finset.mem_range.mpr hr, hns⟩
  · intro hmem
    exact (Finset.mem_filter.mp hmem).2 (List.mem_cons_self r seen)

lemma strPK_seen_mono (h : JHeap) : ∀ fuel,
    (∀ seen r out, strPKG fuel h seen r = some out → seen ⊆ out.2)
    ∧ (∀ seen fs out, strPKGFields fuel h seen fs = some out → seen ⊆ out.2)
    ∧ (∀ seen es out, strPKGElems fuel h seen es = some out → seen ⊆ out.2) := by
  intro fuel
  induction fuel using Nat.strong_induction_on with
  | _ fuel IH =>
    have hG : ∀ seen r out, strPKG fuel h seen r = some out → seen ⊆ out.2 := by
      intro seen r out heq
      cases fuel with
      | zero =>
        cases hd : h.deref r with
        | none => simp [strPKG, hd] at heq
        | some n =>
          cases n with
          | nPrim p =>
            simp [strPKG, hd] at heq
            exact heq ▸ fun x hx => hx
          | nObj fs =>
            by_cases hmem : r ∈ seen
            · simp [strPKG, hd, hmem] at heq
              exact heq ▸ fun x hx => hx
            · simp [strPKG, hd, hmem] at heq
          | nArr es =>
            by_cases hmem : r ∈ seen
            · simp [strPKG, hd, hmem] at heq
              exact heq ▸ fun x hx => hx
            · simp [strPKG, hd, hmem] at heq
      | succ g =>
        cases hd : h.deref r with
        | none => simp [strPKG, hd] at heq
        | some n =>
          cases n with
          | nPrim p =>
            simp [strPKG, hd] at heq
            exact heq ▸ fun x hx => hx
          | nObj fs =>
            by_cases hmem : r ∈ seen
            · simp [strPKG, hd, hmem] at heq
              exact heq ▸ fun x hx => hx
            · simp only [strPKG, hd, if_neg hmem] at heq
              cases hf : strPKGFields g h (r :: seen) fs with
              | none => rw [hf] at heq; simp at heq
              | some pr =>
                rw [hf] at heq
                simp at heq
                have hsub := (IH g (Nat.lt_succ_self g)).2.1 (r :: seen) fs pr hf
                rw [← heq]
                exact fun x hx => hsub (List.mem_cons_of_mem r hx)
          | nArr es =>
            by_cases hmem : r ∈ seen
            · simp [strPKG, hd, hmem] at heq
              exact heq ▸ fun x hx => hx
            · simp only [strPKG, hd, if_neg hmem] at heq
              cases hf : strPKGElems g h (r :: seen) es with
              | none => rw [hf] at heq; simp at heq
              | some pr =>
                rw [hf] at heq
                simp at heq
                have hsub := (IH g (Nat.lt_succ_self g)).2.2 (r :: seen) es pr hf
                rw [← heq]
                exact fun x hx => hsub (List.mem_cons_of_mem r hx)
    have hF : ∀ seen fs out, strPKGFields fuel h seen fs = some out → seen ⊆ out.2 := by
      intro seen fs
      induction fs generalizing seen with
      | nil =>
        intro out heq
        simp [strPKGFields] at heq
        exact heq ▸ fun x hx => hx
      | cons kv fs ihf =>
        intro out heq
        obtain ⟨k, v⟩ := kv
        by_cases hu : isUndefRef h v
        · simp only [strPKGFields, if_pos hu] at heq
          exact ihf seen out heq
        · simp only [strPKGFields, if_neg hu] at heq
          cases hg : strPKG fuel h seen v with
          | none => rw [hg] at heq; simp at heq
          | some pr =>
            obtain ⟨s1, seen2⟩ := pr
            rw [hg] at heq
            simp only [] at heq
            cases hf : strPKGFields fuel h seen2 fs with
            | none => rw [hf] at heq; simp at heq
            | some pr2 =>
              obtain ⟨ss, seen3⟩ := pr2
              rw [hf] at heq
              simp at heq
              have h1 := hG seen v (s1, seen2) hg
              have h2 := ihf seen2 (ss, seen3) hf
              exact heq ▸ fun x hx => h2 (h1 hx)
    have hE : ∀ seen es out, strPKGElems fuel h seen es = some out → seen ⊆ out.2 := by
      intro seen es
      induction es generalizing seen with
      | nil =>
        intro out heq
        simp [strPKGElems] at heq
        exact heq ▸ fun x hx => hx
      | cons e es ihe =>
        intro out heq
        simp only [strPKGElems] at heq
        cases hg : strPKG fuel h seen e with
        | none => rw [hg] at heq; simp at heq
        | some pr =>
          obtain ⟨s1, seen2⟩ := pr
          rw [hg] at heq
          simp only [] at heq
          cases hf : strPKGElems fuel h seen2 es with
          | none => rw [hf] at heq; simp at heq
          | some pr2 =>
            obtain ⟨ss, seen3⟩ := pr2
            rw [hf] at heq
            simp at heq
            have h1 := hG seen e (s1, seen2) hg
            have h2 := ihe seen2 (ss, seen3) hf
            exact heq ▸ fun x hx => h2 (h1 hx)
    exact ⟨hG, hF, hE⟩

lemma unseen_zero_mem (h : JHeap) (seen : List JRef) (r : JRef)
    (hr : r < h.size) (hc : unseenCount h seen = 0) : r ∈ seen := by
  by_contra hns
  have hmem : r ∈ (Finset.range h.size).filter (fun a => ¬ a ∈ seen) :=
    Finset.mem_filter.mpr ⟨Finset.mem_range.mpr hr, hns⟩
  have := Finset.card_eq_zero.mp hc
  rw [this] at hmem
  exact absurd hmem (Finset.not_mem_empty r)

lemma deref_of_lt (h : JHeap) (r : JRef) (hr : r < h.size) :
    h.deref r = some (h.nodes.get ⟨r, hr⟩) := List.get?_eq_get hr

lemma child_of_obj (h : JHeap) (r : JRef) (fs : List (String × JRef))
    (hget : h.deref r = some (.nObj fs)) (v : JRef) (hv : v ∈ fs.map (·.2)) :
    v ∈ childRefs h r := by
  simp [childRefs, hget, nodeRefs, hv]

lemma child_of_arr (h : JHeap) (r : JRef) (es : List JRef)
    (hget : h.deref r = some (.nArr es)) (v : JRef) (hv : v ∈ es) :
    v ∈ childRefs h r := by
  simp [childRefs, hget, nodeRefs, hv]

lemma strPK_total (h : JHeap) (hwf : WfHeap h = true) : ∀ fuel,
    (∀ seen r, r < h.size → unseenCount h seen ≤ fuel → (strPKG fuel h seen r).isSome)
    ∧ (∀ seen fs, (∀ kv ∈ fs, (kv : String × JRef).2 < h.size) →
        unseenCount h seen ≤ fuel → (strPKGFields fuel h seen fs).isSome)
    ∧ (∀ seen es, (∀ e ∈ es, e < h.size) →
        unseenCount h seen ≤ fuel → (strPKGElems fuel h seen es).isSome) := by
  intro fuel
  induction fuel using Nat.strong_induction_on with
  | _ fuel IH =>
    have hG : ∀ seen r, r < h.size → unseenCount h seen ≤ fuel →
        (strPKG fuel h seen r).isSome := by
      intro seen r hr hc
      have hget := deref_of_lt h r hr
      cases fuel with
      | zero =>
        have hc0 : unseenCount h seen = 0 := Nat.le_zero.mp hc
        cases hn : h.nodes.get ⟨r, hr⟩ with
        | nPrim p => rw [hn] at hget; simp [strPKG, hget]
        | nObj fs =>
          rw [hn] at hget
          have hmem := unseen_zero_mem h seen r hr hc0
          simp [strPKG, hget, hmem]
        | nArr es =>
          rw [hn] at hget
          have hmem := unseen_zero_mem h seen r hr hc0
          simp [strPKG, hget, hmem]
      | succ g =>
        cases hn : h.nodes.get ⟨r, hr⟩ with
        | nPrim p => rw [hn] at hget; simp [strPKG, hget]
        | nObj fs =>
          rw [hn] at hget
          by_cases hmem : r ∈ seen
          · simp [strPKG, hget, hmem]
          · have hrefs : ∀ kv ∈ fs, (kv : String × JRef).2 < h.size := by
              intro kv hkv
              exact wf_child_lt h hwf r kv.2
                (child_of_obj h r fs hget kv.2 (List.mem_map_of_mem (·.2) hkv))
            have hc2 : unseenCount h (r :: seen) ≤ g := by
              have := unseenCount_push h seen r hr hmem
              omega
            obtain ⟨out, hout⟩ := Option.isSome_iff_exists.mp
              ((IH g (Nat.lt_succ_self g)).2.1 (r :: seen) fs hrefs hc2)
            simp [strPKG, hget, hmem, hout]
        | nArr es =>
          rw [hn] at hget
          by_cases hmem : r ∈ seen
          · simp [strPKG, hget, hmem]
          · have hrefs : ∀ e ∈ es, e < h.size := by
              intro e he
              exact wf_child_lt h hwf r e (child_of_arr h r es hget e he)
            have hc2 : unseenCount h (r :: seen) ≤ g := by
              have := unseenCount_push h seen r hr hmem
              omega
            obtain ⟨out, hout⟩ := Option.isSome_iff_exists.mp
              ((IH g (Nat.lt_succ_self g)).2.2 (r :: seen) es hrefs hc2)
            simp [strPKG, hget, hmem, hout]
    have hF : ∀ seen fs, (∀ kv ∈ fs, (kv : String × JRef).2 < h.size) →
        unseenCount h seen ≤ fuel → (strPKGFields fuel h seen fs).isSome := by
      intro seen fs
      induction fs generalizing seen with
      | nil => intro _ _; simp [strPKGFields]
      | cons kv fs ihf =>
        intro hrefs hc
        obtain ⟨k, v⟩ := kv
        by_cases hu : isUndefRef h v
        · have := ihf seen (fun x hx => hrefs x (List.mem_cons_of_mem _ hx)) hc
          simpa [strPKGFields, if_pos hu] using this
        · have hv : v < h.size := hrefs (k, v) (List.mem_cons_self _ _)
          obtain ⟨pr, hpr⟩ := Option.isSome_iff_exists.mp (hG seen v hv hc)
          obtain ⟨s1, seen2⟩ := pr
          have hsub := (strPK_seen_mono h fuel).1 seen v (s1, seen2) hpr
          have hc2 : unseenCount h seen2 ≤ fuel :=
            le_trans (unseenCount_mono h seen seen2 hsub) hc
          obtain ⟨pr2, hpr2⟩ := Option.isSome_iff_exists.mp
            (ihf seen2 (fun x hx => hrefs x (List.mem_cons_of_mem _ hx)) hc2)
          obtain ⟨ss, seen3⟩ := pr2
          simp [strPKGFields, if_neg hu, hpr, hpr2]
    have hE : ∀ seen es, (∀ e ∈ es, e < h.size) →
        unseenCount h seen ≤ fuel → (strPKGElems fuel h seen es).isSome := by
      intro seen es
      induction es generalizing seen with
      | nil => intro _ _; simp [strPKGElems]
      | cons e es ihe =>
        intro hrefs hc
        have he : e < h.size := hrefs e (List.mem_cons_self _ _)
        obtain ⟨pr, hpr⟩ := Option.isSome_iff_exists.mp (hG seen e he hc)
        obtain ⟨s1, seen2⟩ := pr
        have hsub := (strPK_seen_mono h fuel).1 seen e (s1, seen2) hpr
        have hc2 : unseenCount h seen2 ≤ fuel :=
          le_trans (unseenCount_mono h seen seen2 hsub) hc
        obtain ⟨pr2, hpr2⟩ := Option.isSome_iff_exists.mp
          (ihe seen2 (fun x hx => hrefs x (List.mem_cons_of_mem _ hx)) hc2)
        obtain ⟨ss, seen3⟩ := pr2
        simp [strPKGElems, hpr, hpr2]
    exact ⟨hG, hF, hE⟩

lemma jsToStr_total (h : JHeap) (hwf : WfHeap h = true) : ∀ fuel,
    (∀ stack r, r < h.size → unseenCount h stack ≤ fuel → (jsToStrG fuel h stack r).isSome)
    ∧ (∀ stack es, (∀ e ∈ es, e < h.size) → unseenCount h stack ≤ fuel →
        (jsToStrGElems fuel h stack es).isSome) := by
  intro fuel
  induction fuel using Nat.strong_induction_on with
  | _ fuel IH =>
    have hG : ∀ stack r, r < h.size → unseenCount h stack ≤ fuel →
        (jsToStrG fuel h stack r).isSome := by
      intro stack r hr hc
      have hget := deref_of_lt h r hr
      cases fuel with
      | zero =>
        have hc0 : unseenCount h stack = 0 := Nat.le_zero.mp hc
        cases hn : h.nodes.get ⟨r, hr⟩ with
        | nPrim p => rw [hn] at hget; simp [jsToStrG, hget]
        | nObj fs => rw [hn] at hget; simp [jsToStrG, hget]
        | nArr es =>
          rw [hn] at hget
          have hmem := unseen_zero_mem h stack r hr hc0
          simp [jsToStrG, hget, hmem]
      | succ g =>
        cases hn : h.nodes.get ⟨r, hr⟩ with
        | nPrim p => rw [hn] at hget; simp [jsToStrG, hget]
        | nObj fs => rw [hn] at hget; simp [jsToStrG, hget]
        | nArr es =>
          rw [hn] at hget
          by_cases hmem : r ∈ stack
          · simp [jsToStrG, hget, hmem]
          · have hrefs : ∀ e ∈ es, e < h.size := by
              intro e he
              exact wf_child_lt h hwf r e (child_of_arr h r es hget e he)
            have hc2 : unseenCount h (r :: stack) ≤ g := by
              have := unseenCount_push h stack r hr hmem
              omega
            obtain ⟨out, hout⟩ := Option.isSome_iff_exists.mp
              ((IH g (Nat.lt_succ_self g)).2 (r :: stack) es hrefs hc2)
            simp [jsToStrG, hget, hmem, hout]
    have hE : ∀ stack es, (∀ e ∈ es, e < h.size) → unseenCount h stack ≤ fuel →
        (jsToStrGElems fuel h stack es).isSome := by
      intro stack es
      induction es with
      | nil => intro _ _; simp [jsToStrGElems]
      | cons e es ihe =>
        intro hrefs hc
        obtain ⟨tl, htl⟩ := Option.isSome_iff_exists.mp
          (ihe (fun x hx => hrefs x (List.mem_cons_of_mem _ hx)) hc)
        by_cases hn : isNullishRef h e
        · simp [jsToStrGElems, hn, htl]
        · have he : e < h.size := hrefs e (List.mem_cons_self _ _)
          obtain ⟨hd, hhd⟩ := Option.isSome_iff_exists.mp (hG stack e he hc)
          simp [jsToStrGElems, hn, hhd, htl]
    exact ⟨hG, hE⟩

lemma unseenCount_le_size (h : JHeap) (seen : List JRef) : unseenCount h seen ≤ h.size := by
  calc ((Finset.range h.size).filter (fun a => ¬ a ∈ seen)).card
      ≤ (Finset.range h.size).card := Finset.card_filter_le _ _
    _ = h.size := Finset.card_range _

lemma fieldsGet_mem (fs : List (String × JRef)) (k : String) (v : JRef)
    (hv : fieldsGet fs k = some v) : v ∈ fs.map (·.2) := by
  unfold fieldsGet at hv
  cases hf : fs.find? (fun kv => kv.1 == k) with
  | none => rw [hf] at hv; simp at hv
  | some kv =>
    rw [hf] at hv
    simp at hv
    have := List.mem_of_find?_eq_some hf
    rw [← hv]
    exact List.mem_map_of_mem (·.2) this

lemma jsToStr_heapFuel_some (h : JHeap) (hwf : WfHeap h = true) (v : JRef)
    (hv : v < h.size) : (jsToStrG (h.size + 1) h [] v).isSome :=
  (jsToStr_total h hwf (h.size + 1)).1 [] v hv
    (le_trans (unseenCount_le_size h []) (Nat.le_succ _))

lemma insertStr_length (x : String) (l : List String) :
    (insertStr x l).length = l.length + 1 := by
  induction l with
  | nil => rfl
  | cons y ys ih =>
    by_cases hxy : strLe x y
    · simp [insertStr, hxy]
    · simp [insertStr, hxy, ih]

lemma sortStr_length (l : List String) : (sortStr l).length = l.length := by
  induction l with
  | nil => rfl
  | cons x xs ih => simp [sortStr, insertStr_length, ih]

/-- C6: record-identity resolution is total on every well-formed object
graph — including self-referential records, bigint fields and empty
records — and, being a function of the heap, record, table name and key
spec, is deterministic; and the catch-branch fallback string depends
only on the sorted field names (hence also the field count), so it is
stable across any two records with the same sorted key list. -/
theorem extractPrimaryKey_never_throws :
    (∀ (h : JHeap) (root : JRef) (tableName : String) (ks : Option (List String))
        (fs : List (String × JRef)),
      WfHeap h = true → h.deref root = some (.nObj fs) →
        (extractPrimaryKeyG h root tableName ks).isSome)
    ∧ (∀ ks1 ks2 : List String, sortStr ks1 = sortStr ks2 →
        fallbackPK ks1 = fallbackPK ks2) := by
  constructor
  · intro h root tableName ks fs hwf hroot
    have hrootlt : root < h.size := by
      have : h.nodes.get? root = some (.nObj fs) := hroot
      exact List.get?_eq_some.mp this |>.1
    have hbranch : ∀ k v, fieldsGet fs k = some v →
        (jsToStrG (h.size + 1) h [] v).isSome := by
      intro k v hget
      have hv : v < h.size :=
        wf_child_lt h hwf root v (child_of_obj h root fs hroot v (fieldsGet_mem fs k v hget))
      exact jsToStr_heapFuel_some h hwf v hv
    cases hcfg : ks.bind (extractConfiguredPKG h fs) with
    | some s => simp [extractPrimaryKeyG, hroot, hcfg]
    | none =>
      cases hfind : ["id", tableName ++ "_id", "uuid", "pk"].find? (fieldUsable h fs) with
      | some k =>
        have husable := List.find?_some hfind
        simp only [fieldUsable, Bool.and_eq_true] at husable
        have hsome : (fieldsGet fs k).isSome := husable.1
        obtain ⟨v, hv⟩ := Option.isSome_iff_exists.mp hsome
        obtain ⟨s, hs⟩ := Option.isSome_iff_exists.mp (hbranch k v hv)
        simp [extractPrimaryKeyG, hroot, hcfg, hfind, hv, hs]
      | none =>
        cases hfind2 : (fs.map (·.1)).find?
            (fun k => (k.toLower.endsWith "id") && fieldUsable h fs k) with
        | some k =>
          have husable := List.find?_some hfind2
          simp only [fieldUsable, Bool.and_eq_true] at husable
          have hsome : (fieldsGet fs k).isSome := husable.2.1
          obtain ⟨v, hv⟩ := Option.isSome_iff_exists.mp hsome
          obtain ⟨s, hs⟩ := Option.isSome_iff_exists.mp (hbranch k v hv)
          simp [extractPrimaryKeyG, hroot, hcfg, hfind, hfind2, hv, hs]
        | none =>
          simp [extractPrimaryKeyG, hroot, hcfg, hfind, hfind2]
  · intro ks1 ks2 hsort
    have hlen : ks1.length = ks2.length := by
      have h1 := sortStr_length ks1
      have h2 := sortStr_length ks2
      rw [hsort] at h1
      omega
    simp [fallbackPK, hsort, hlen]

/-- The self-referential record a = { self: a, big: 2^80 }. -/
def selfRefHeap : JHeap :=
  { nodes := [.nObj [("self", 0), ("big", 1)],
              .nPrim (.pBigInt 1208925819614629174706176)] }

/-- A record with no fields at all. -/
def emptyRecHeap : JHeap := { nodes := [.nObj []] }

/-- C6 witness: identity resolution succeeds on the self-referential
bigint record and on the empty record, and the fallback string agrees
across two key orderings of the same field set. -/
theorem extractPrimaryKey_never_throws_witness :
    (extractPrimaryKeyG selfRefHeap 0 "users" none).isSome
    ∧ (extractPrimaryKeyG emptyRecHeap 0 "users" none).isSome
    ∧ fallbackPK ["b", "a"] = fallbackPK ["a", "b"] :=
  ⟨extractPrimaryKey_never_throws.1 selfRefHeap 0 "users" none
      [("self", 0), ("big", 1)] (by decide) rfl,
   extractPrimaryKey_never_throws.1 emptyRecHeap 0 "users" none [] (by decide) rfl,
   extractPrimaryKey_never_throws.2 ["b", "a"] ["a", "b"] (by decide)⟩

end AuditCore
